import Mathlib

/-!
Verification development for the centichess position-evaluation core.

The definitions below are shallow embeddings of `src/evaluation/Engine.js`
(the `Engine` handle, `AccuracyCalculator`) and of
`src/evaluation/MoveEvaluator.js` (`MoveEvaluator.batchEvaluateMoves`).
JavaScript numbers that only ever hold integers are modelled as `Nat`/`Int`
(with `Option Int` standing for a possibly-NaN value), and floating-point
arithmetic from the accuracy formulas is modelled over the reals.
-/

/-- Result of `parseInt` on a digit run: `natOfDigits` folds decimal digits. -/
def natOfDigits (ds : List Char) : Nat :=
  ds.foldl (fun n c => 10 * n + (c.toNat - 48)) 0

/-- JavaScript `parseInt` applied to a capture of the character class
`[0-9-]+`: an optional leading minus sign followed by digits; `none`
models `NaN` (no digits after the optional sign). -/
def jsParseInt (cs : List Char) : Option Int :=
  match cs with
  | '-' :: rest =>
    let ds := rest.takeWhile Char.isDigit
    if ds.isEmpty then none else some (-(natOfDigits ds : Int))
  | _ =>
    let ds := cs.takeWhile Char.isDigit
    if ds.isEmpty then none else some ((natOfDigits ds : Int))

/-- Regex search `pat(\d+)` over a character list: starting at each position
in turn, match the literal `pat` and then capture a maximal nonempty digit
run; on failure (no digits follow) the scan resumes at the next position,
exactly as a regex engine backtracks. Mirrors `output.match(/(?:depth )(\d+)/)`
and `output.match(/(?:multipv )(\d+)/)` in `Engine.interpret`. -/
def findDigitsAfter (pat : List Char) : List Char → Option (List Char)
  | [] => none
  | c :: rest =>
    if pat.isPrefixOf (c :: rest) then
      let ds := ((c :: rest).drop pat.length).takeWhile Char.isDigit
      if ds.isEmpty then findDigitsAfter pat rest else some ds
    else findDigitsAfter pat rest

/-- Capture of `/(?:depth )(\d+)/` as a number (`parseInt` of the digits). -/
def parseDepthNum (s : String) : Option Nat :=
  (findDigitsAfter ("depth ".toList) s.toList).map natOfDigits

/-- Capture of `/(?:multipv )(\d+)/` as a number. -/
def parseMultipv (s : String) : Option Nat :=
  (findDigitsAfter ("multipv ".toList) s.toList).map natOfDigits

/-- Character class `[\d-]` from the score regex in `Engine.interpret`. -/
def isScoreChar (c : Char) : Bool := c.isDigit || c = '-'

/-- Regex search `/(?:(?:cp )|(?:mate ))([\d-]+)/`: at each position try the
alternative `"cp "` first, then `"mate "`, and capture a maximal nonempty
run of `[0-9-]`; otherwise move one position right. -/
def findScoreCapture : List Char → Option (List Char)
  | [] => none
  | c :: rest =>
    if ("cp ".toList).isPrefixOf (c :: rest) then
      let ds := ((c :: rest).drop 3).takeWhile isScoreChar
      if ds.isEmpty then findScoreCapture rest else some ds
    else if ("mate ".toList).isPrefixOf (c :: rest) then
      let ds := ((c :: rest).drop 5).takeWhile isScoreChar
      if ds.isEmpty then findScoreCapture rest else some ds
    else findScoreCapture rest

/-- The raw engine-reported score of one output line:
`parseInt(output.match(/(?:(?:cp )|(?:mate ))([\d-]+)/)?.[1] || "0")`.
A missing match yields `0`; a match whose capture has no digits yields
`NaN` (`none`). -/
def negamaxScoreOf (s : String) : Option Int :=
  match findScoreCapture s.toList with
  | none => some 0
  | some cs => jsParseInt cs

/-- Regex search `/(?: pv )(.+?)(?= \|$)/` (a lazy capture stopped by a space
or the end of the line): after the first occurrence of `" pv "` that is
followed by at least one character, the capture is that character together
with the following run of non-space characters. -/
def captureAfterPv : List Char → Option (List Char)
  | [] => none
  | c :: rest =>
    if (" pv ".toList).isPrefixOf (c :: rest) then
      match ((c :: rest).drop 4) with
      | [] => captureAfterPv rest
      | d :: ds => some (d :: ds.takeWhile (fun ch => ch ≠ ' '))
    else captureAfterPv rest

/-- The UCI move of one output line, `output.match(/(?: pv )(.+?)(?= \|$)/)?.[1]`. -/
def parseUciMove (s : String) : Option String :=
  (captureAfterPv s.toList).map (fun cs => String.mk cs)

/-- JavaScript `\s` whitespace class, restricted to the characters that can
occur in engine output. -/
def jsIsSpace (c : Char) : Bool := c = ' ' || c = '\t' || c = '\n' || c = '\r'

/-- Regex search `/.*pv\s+(.*)$/`: the greedy `.*` selects the last occurrence
of `"pv"` that is followed by at least one whitespace character; the capture
is the rest of the line after that whitespace run. -/
def pvRest : List Char → Option (List Char)
  | [] => none
  | c :: rest =>
    match pvRest rest with
    | some r => some r
    | none =>
      if ("pv".toList).isPrefixOf (c :: rest) then
        match ((c :: rest).drop 2) with
        | a :: more =>
          if jsIsSpace a then some (more.dropWhile jsIsSpace) else none
        | [] => none
      else none

/-- JavaScript `s.includes(pat)`: some position of `s` starts with `pat`. -/
def hasSub (pat : List Char) : List Char → Bool
  | [] => pat.isEmpty
  | c :: rest => pat.isPrefixOf (c :: rest) || hasSub pat rest

/-- JavaScript `s.includes(pat)` on strings. -/
def strIncludes (s pat : String) : Bool := hasSub pat.toList s.toList

/-- One evaluation line produced by `Engine.interpret` (the object pushed at
`lines.push({ id, uciMove, depth, score, type, pv })`). `score` may be `NaN`
in JavaScript if the score capture holds no digits, which `Option Int`
models as `none`. -/
structure EvalLine where
  id : Nat
  uciMove : String
  depth : Nat
  score : Option Int
  type : String
  pv : List String
deriving DecidableEq, Repr

/-- JavaScript `s.startsWith(pat)` modelled directly on the character list. -/
def strStartsWith (s pat : String) : Bool := pat.toList.isPrefixOf s.toList

/-- JavaScript `s.split(" ")` with a one-character separator: cut at every
space, keeping empty fragments between consecutive spaces, one fragment per
separator occurrence plus one. -/
def splitOnSpaceAux : List Char → List Char → List String
  | [], cur => [String.mk cur.reverse]
  | c :: rest, cur =>
    if c = ' ' then String.mk cur.reverse :: splitOnSpaceAux rest []
    else splitOnSpaceAux rest (c :: cur)

/-- JavaScript `s.split(" ")` on a string. -/
def jsSplitOnSpace (s : String) : List String := splitOnSpaceAux s.toList []

/-- The record built from a single `info depth` output line inside the loop of
`Engine.interpret` (lines 172-188 of Engine.js), or `none` when the guard
`!id || !depth || !uciMove` rejects the line. The score inversion
`fen.includes(" b ") ? -negamaxScore : negamaxScore` and the kind test
`output.includes(" cp ")` are applied here; the principal variation uses the
result of `/.*pv\s+(.*)$/` split on single spaces (defined whenever the
uciMove capture succeeded). -/
def lineFromOutput (s : String) (fen : String) : Option EvalLine :=
  match parseMultipv s, parseDepthNum s, parseUciMove s with
  | some id, some depth, some uciMove =>
    if id = 0 ∨ depth = 0 then none
    else
      let negamaxScore := negamaxScoreOf s
      some { id := id
             uciMove := uciMove
             depth := depth
             score := if strIncludes fen " b " then negamaxScore.map (fun z => -z) else negamaxScore
             type := if strIncludes s " cp " then "cp" else "mate"
             pv := ((pvRest s.toList).map (fun cs => jsSplitOnSpace (String.mk cs))).getD [] }
  | _, _, _ => none

/-- The maximum search depth reached over all `info depth` lines, computed by
the first loop of `Engine.interpret` with `parseInt(... || "0")`. -/
def maxDepthOf (uciOutputLines : List String) : Nat :=
  (uciOutputLines.filter (fun s => strStartsWith s "info depth")).foldl
    (fun m s => max m ((parseDepthNum s).getD 0)) 0

/-- One iteration of the `for (const output of outputs)` loop of
`Engine.interpret`: parse the line, and push it when it reaches the maximum
depth and its multi-PV id is fresh (the guard
`depth !== maxDepth || lines.some(line => line.id == id)`). -/
def interpretStep (fen : String) (maxDepth : Nat) (lines : List EvalLine)
    (s : String) : List EvalLine :=
  match lineFromOutput s fen with
  | some l =>
    if l.depth = maxDepth ∧ ¬ lines.any (fun x => x.id = l.id) then lines ++ [l]
    else lines
  | none => lines

/-- `Engine.interpret(uciOutputLines, fen, targetDepth)`: keep the
`info depth` lines, compute the maximum achieved depth, then fold the push
loop over the output lines. -/
def interpret (uciOutputLines : List String) (fen : String) (targetDepth : Nat) :
    List EvalLine :=
  let outputs := uciOutputLines.filter (fun s => strStartsWith s "info depth")
  let maxDepth := outputs.foldl (fun m s => max m ((parseDepthNum s).getD 0)) 0
  outputs.foldl (interpretStep fen maxDepth) []

/-!
Shallow embedding of `MoveEvaluator.batchEvaluateMoves` (MoveEvaluator.js,
lines 113-229).  The concurrency of the worker pool is modelled by a
*completion order*: the list of job indices in the order in which the
concurrent `worker.evaluate` calls settle.  Each settlement performs exactly
the effects of the code's completion handler (lines 196-213): it stores the
evaluated move at the job's original index `move.i` in the preallocated
output array, increments the completed counter, and emits one progress value
`Math.round(completedMoves / history.length * 100)`.  Once everything has
completed the scheduler emits a final `progressCallback(100, ...)` and
resolves (lines 170-180); with an empty move list it emits `100` once and
resolves `[]` immediately (lines 220-227).  The FEN and UCI strings attached
to each queue entry come from the external chess collaborator (`game.move`,
`game.fen()`) and are abstracted into the opaque move payload `α`; the
evaluation lines returned by the engine for job `i` are abstracted as
`linesFor i`.
-/

/-- One entry of the `queue` built by
`history.map((move, i) => { ... return { move, fen, i, uciMove }; })`:
a move payload together with its original ordinal index. -/
structure EvalJob (α : Type) where
  move : α
  i : Nat
deriving DecidableEq, Repr

/-- A completed job as stored into the output array: the queue entry with its
evaluation lines attached (`move.lines = lines; moves[move.i] = move`). -/
structure EvaluatedMove (α : Type) where
  move : α
  i : Nat
  lines : List EvalLine
deriving DecidableEq, Repr

/-- The queue construction `history.map((move, i) => ...)`, written with an
explicit running index. -/
def buildQueueFrom (start : Nat) : List α → List (EvalJob α)
  | [] => []
  | m :: rest => ⟨m, start⟩ :: buildQueueFrom (start + 1) rest

/-- The job queue of a batch: each input move paired with its ordinal. -/
def buildQueue (history : List α) : List (EvalJob α) :=
  buildQueueFrom 0 history

/-- `Math.round(num / den)` for nonnegative integers:
`floor(num/den + 1/2) = (2*num + den) / (2*den)` in integer arithmetic. -/
def jsRound (num den : Nat) : Nat := (2 * num + den) / (2 * den)

/-- The mutable state of one batch: the output array (`moves`, preallocated
with `new Array(history.length)`), the `completedMoves` counter, and the
sequence of percent values passed to `progressCallback` so far. -/
structure SchedState (α : Type) where
  results : List (Option (EvaluatedMove α))
  completed : Nat
  events : List Nat
deriving Repr

/-- Settlement of one job (the body of the `Promise.all` callback plus its
`finally` block, MoveEvaluator.js lines 189-213): write the evaluated move at
its original index — never append — bump the counter, and report
`Math.round(completedMoves / total * 100)`. -/
def completeOne (total : Nat) (linesFor : Nat → List EvalLine)
    (queue : List (EvalJob α)) (st : SchedState α) (j : Nat) : SchedState α :=
  match queue.get? j with
  | none => st
  | some job =>
    let evaluated : EvaluatedMove α :=
      { move := job.move, i := job.i, lines := linesFor job.i }
    { results := st.results.set job.i (some evaluated)
      completed := st.completed + 1
      events := st.events ++ [jsRound ((st.completed + 1) * 100) total] }

/-- `MoveEvaluator.batchEvaluateMoves` for a given completion order.  An empty
history resolves at once with `[]` after a single `progressCallback(100)`
(lines 220-224); otherwise the jobs settle in the order given, and the final
scheduling tick reports `100` once more before resolving (lines 170-180). -/
def runBatch (history : List α) (linesFor : Nat → List EvalLine)
    (order : List (Fin history.length)) : SchedState α :=
  let queue := buildQueue history
  let total := history.length
  if total = 0 then { results := [], completed := 0, events := [100] }
  else
    let st0 : SchedState α :=
      { results := List.replicate total none, completed := 0, events := [] }
    let stN := order.foldl (fun st j => completeOne total linesFor queue st j.val) st0
    { stN with events := stN.events ++ [100] }

/-!
Shallow embedding of the retry discipline of `Engine.evaluate`
(Engine.js lines 286-307).  Each call carries the retry counter `fallen`
(`0` on the initial call).  An attempt either completes with its parsed
lines, or hits the safety timeout, modelled by `outcome fallen = none`.  On
timeout the code runs `fallbackToAlternativeEngine(fallen)` and retries with
`fallen + 1` while `fallen < 2`; once `fallen` reaches `2` it resolves `[]`
("Gave up") instead of retrying.
-/

/-- The timeout/fallback recursion of `Engine.evaluate`: `outcome k` is what
attempt number `k` produces (`some lines` if a `bestmove` arrives in time,
`none` if the safety timeout fires first). -/
def evaluateWithRetries (outcome : Nat → Option (List EvalLine)) (fallen : Nat) :
    List EvalLine :=
  match outcome fallen with
  | some lines => lines
  | none => if fallen < 2 then evaluateWithRetries outcome (fallen + 1) else []
termination_by 3 - fallen
decreasing_by omega

/-!
Shallow embedding of `Engine.abort` (Engine.js lines 84-92) over the handle
fields it touches (`busy`, `currentResolve`, `currentReject`).  A pending
promise is identified by a token; `resolved` records the value an in-flight
promise is resolved with, and `posted` the messages sent to the worker.
-/

/-- The engine-handle fields read and written by `abort`. -/
structure EngineState where
  busy : Bool
  currentResolve : Option Nat
  currentReject : Option Nat
deriving DecidableEq, Repr

/-- Observable effects of one `abort()` call: worker messages posted and the
resolution (promise token and value) performed, if any. -/
structure AbortEffects where
  posted : List String
  resolved : Option (Nat × List EvalLine)
deriving DecidableEq, Repr

/-- `Engine.abort()`: post `stop`; if a resolver is pending, resolve it with
`[]` and clear both callback fields; in all cases clear the busy flag. -/
def EngineState.abort (s : EngineState) : EngineState × AbortEffects :=
  match s.currentResolve with
  | some r =>
    ({ s with currentResolve := none, currentReject := none, busy := false },
     { posted := ["stop"], resolved := some (r, []) })
  | none =>
    ({ s with busy := false }, { posted := ["stop"], resolved := none })

/-!
Shallow embedding of `AccuracyCalculator` (Engine.js lines 314-514).  The
JavaScript floating-point arithmetic is modelled over the reals.
-/

/-- The local `winPercent` formula of `AccuracyCalculator.centipawnsToWinPercent`:
`50 + 50 * (2 / (1 + Math.exp(-0.00368208 * centipawns)) - 1)`. -/
noncomputable def winPercentFormula (centipawns : ℝ) : ℝ :=
  50 + 50 * (2 / (1 + Real.exp (-0.00368208 * centipawns)) - 1)

/-- `AccuracyCalculator.centipawnsToWinPercent`: mate-magnitude scores
(`Math.abs(centipawns) > 10000`) saturate to `100` or `0`; otherwise the
sigmoid formula clamped by `Math.max(0, Math.min(100, winPercent))`.  The
`null`/`undefined` guard of the source (which returns `50`) has no
counterpart for a real-valued argument. -/
noncomputable def centipawnsToWinPercent (centipawns : ℝ) : ℝ :=
  if 10000 < |centipawns| then (if 0 < centipawns then 100 else 0)
  else max 0 (min 100 (winPercentFormula centipawns))

/-- `AccuracyCalculator.calculateMoveAccuracy`:
`clamp(103.1668 * exp(-0.04354 * max(0, before - after)) - 3.1669, 0, 100)`. -/
noncomputable def calculateMoveAccuracy (winPercentBefore winPercentAfter : ℝ) : ℝ :=
  let winPercentLoss := max 0 (winPercentBefore - winPercentAfter)
  let accuracy := 103.1668 * Real.exp (-0.04354 * winPercentLoss) - 3.1669
  max 0 (min 100 accuracy)

/-- `AccuracyCalculator.standardDeviation`. -/
noncomputable def standardDeviation (values : List ℝ) : ℝ :=
  if values.isEmpty then 0
  else
    let mean := values.sum / (values.length : ℝ)
    let variance := (values.map (fun v => (v - mean) ^ 2)).sum / (values.length : ℝ)
    Real.sqrt variance

/-- `AccuracyCalculator.weightedMean`: `null` (`none`) for an empty list or a
nonpositive weight sum, otherwise the weight-weighted arithmetic mean. -/
noncomputable def weightedMean (weightedValues : List (ℝ × ℝ)) : Option ℝ :=
  if weightedValues.isEmpty then none
  else
    let sumWeightedValues := (weightedValues.map (fun p => p.1 * p.2)).sum
    let sumWeights := (weightedValues.map (fun p => p.2)).sum
    if 0 < sumWeights then some (sumWeightedValues / sumWeights) else none

/-- `AccuracyCalculator.harmonicMean`: values that are not strictly positive
are filtered out (`values.filter(v => v > 0)`); `null` (`none`) when the
input or the filtered list is empty, otherwise
`validValues.length / sum(1 / v)`. -/
noncomputable def harmonicMean (values : List ℝ) : Option ℝ :=
  if values.isEmpty then none
  else
    let validValues := values.filter (fun v => 0 < v)
    if validValues.isEmpty then none
    else
      let sumReciprocals := (validValues.map (fun v => 1 / v)).sum
      some ((validValues.length : ℝ) / sumReciprocals)

/-- A move as consumed by `AccuracyCalculator.calculateGameAccuracy`: the
post-move FEN and the evaluation lines attached by the scheduler. -/
structure GameMove where
  fen : String
  lines : List EvalLine
deriving DecidableEq, Repr

/-- The local `getCentipawns` helper of `calculateGameAccuracy` (lines
442-448).  Its argument is `lines?.[0] || { score: 0, type: "cp" }`; the
default object behaves exactly like `none` here (score `0`, kind `cp`).  A
`NaN` score (`none` inside the line) fails the `> 0` test in the mate branch
and is squashed to `0` by `score || 0` in the centipawn branch. -/
def getCentipawns (evaluation : Option EvalLine) : Int :=
  match evaluation with
  | none => 0
  | some e =>
    if e.type = "mate" then
      (match e.score with
       | some z => if 0 < z then 20000 else -20000
       | none => -20000)
    else (e.score.getD 0)

/-- The `evaluationPairs` loop of `calculateGameAccuracy` (lines 411-437):
for every move of the requested color, the pair of the best line before the
move (the previous move's top line, or the implicit equal starting position
for index 0) and the best line after it.  `none` stands for the default
`{ score: 0, type: "cp" }`. -/
def evaluationPairs (moves : List GameMove) (color : String) :
    List (Option EvalLine × Option EvalLine) :=
  (List.range moves.length).filterMap (fun i =>
    match moves.get? i with
    | none => none
    | some move =>
      let isWhiteMove := strIncludes move.fen " b "
      let isBlackMove := strIncludes move.fen " w "
      if (color = "white" ∧ ¬ isWhiteMove = true) ∨ (color = "black" ∧ ¬ isBlackMove = true)
      then none
      else
        let evalBefore : Option EvalLine :=
          if i = 0 then none
          else match moves.get? (i - 1) with
               | some prev => prev.lines.head?
               | none => none
        some (evalBefore, move.lines.head?))

/-- The `allWinPercents` sequence (lines 450-462): win percent before each
processed move, from the mover's perspective (negated centipawns for black),
followed by the win percent after the last processed move. -/
noncomputable def allWinPercents (pairs : List (Option EvalLine × Option EvalLine))
    (color : String) : List ℝ :=
  let base := pairs.map (fun pair =>
    let cp : Int := getCentipawns pair.1
    let cp : Int := if color = "black" then -cp else cp
    centipawnsToWinPercent (cp : ℝ))
  match pairs.getLast? with
  | none => base
  | some lastPair =>
    let cpAfterLast : Int := getCentipawns lastPair.2
    let cpAfterLast : Int := if color = "black" then -cpAfterLast else cpAfterLast
    base ++ [centipawnsToWinPercent (cpAfterLast : ℝ)]

/-- The volatility window size (line 465):
`Math.max(2, Math.min(8, Math.floor(evaluationPairs.length / 10)))`. -/
def windowSizeOf (n : Nat) : Nat := max 2 (min 8 (n / 10))

/-- The sliding windows over the win-percent sequence (lines 467-479):
`initialWindowCount = min(windowSize - 2, length - 2)` copies of the first
window, then every contiguous window of size `windowSize`.  The JavaScript
loops run zero times when their bounds are negative, which the truncated
`Nat` subtraction and the `windowSize ≤ length` guard reproduce. -/
noncomputable def gameWindows (winPercents : List ℝ) (n : Nat) : List (List ℝ) :=
  let ws := windowSizeOf n
  let len := winPercents.length
  let initialWindowCount := min (ws - 2) (len - 2)
  let initialWindows := List.replicate initialWindowCount (winPercents.take ws)
  let slidingWindows :=
    if ws ≤ len then
      (List.range (len - ws + 1)).map (fun i => (winPercents.drop i).take ws)
    else []
  initialWindows ++ slidingWindows

/-- The window weights (lines 482-485): standard deviation of each window
clamped to `[0.5, 12]`. -/
noncomputable def gameWeights (winPercents : List ℝ) (n : Nat) : List ℝ :=
  (gameWindows winPercents n).map (fun w => max 0.5 (min 12 (standardDeviation w)))

/-- The `weightedAccuracies` loop (lines 488-497): for each index below both
`evaluationPairs.length` and `weights.length`, the pair of the move accuracy
(win percent before vs after) and the window weight. -/
noncomputable def weightedAccuracies (moves : List GameMove) (color : String) :
    List (ℝ × ℝ) :=
  let pairs := evaluationPairs moves color
  let wps := allWinPercents pairs color
  let weights := gameWeights wps pairs.length
  (List.range (min pairs.length weights.length)).map (fun i =>
    (calculateMoveAccuracy (wps.getD i 0) (wps.getD (i + 1) 0), weights.getD i 0))

/-- `AccuracyCalculator.calculateGameAccuracy` (lines 404-514): guards for an
empty move list, an empty pair list and an empty accuracy list return `0`;
otherwise the result combines the weighted arithmetic mean and the unweighted
harmonic mean of the per-move accuracies, falling back to whichever is
defined, and to `0` if neither is. -/
noncomputable def calculateGameAccuracy (moves : List GameMove) (color : String) : ℝ :=
  if moves.isEmpty then 0
  else
    let pairs := evaluationPairs moves color
    if pairs.isEmpty then 0
    else
      let wacc := weightedAccuracies moves color
      if wacc.isEmpty then 0
      else
        match weightedMean wacc, harmonicMean (wacc.map (fun p => p.1)) with
        | none, none => 0
        | none, some h => h
        | some w, none => w
        | some w, some h => (w + h) / 2

/-- A concrete evaluation line used in counterexample runs. -/
def sampleLine : EvalLine :=
  { id := 1, uciMove := "e2e4", depth := 1, score := some 0, type := "cp", pv := [] }

/-- An attempt history in which the initial evaluation and the first fallback
retry both hit the safety timeout, while the second fallback retry completes. -/
def timeoutTwiceOutcome : Nat → Option (List EvalLine) :=
  fun n => if n = 2 then some [sampleLine] else none

/-!
Theorems.
-/

lemma evaluateWithRetries_done {outcome : Nat → Option (List EvalLine)} {fallen : Nat}
    {lines : List EvalLine} (h : outcome fallen = some lines) :
    evaluateWithRetries outcome fallen = lines := by
  rw [evaluateWithRetries.eq_def, h]

lemma evaluateWithRetries_timeout {outcome : Nat → Option (List EvalLine)} {fallen : Nat}
    (h : outcome fallen = none) (hf : fallen < 2) :
    evaluateWithRetries outcome fallen = evaluateWithRetries outcome (fallen + 1) := by
  rw [evaluateWithRetries.eq_def, h]
  simp [hf]

lemma evaluateWithRetries_give_up {outcome : Nat → Option (List EvalLine)} {fallen : Nat}
    (h : outcome fallen = none) (hf : ¬ fallen < 2) :
    evaluateWithRetries outcome fallen = [] := by
  rw [evaluateWithRetries.eq_def, h]
  simp [hf]

/-- C4 (counterexample): with the initial attempt and the first fallback retry
both timing out, `Engine.evaluate` still performs a second fallback retry
(`fallen = 1 < 2` passes the guard) and returns that retry's lines instead of
resolving with the empty result after one fallback attempt. -/
theorem evaluate_retry_exceeds_one_fallback :
    timeoutTwiceOutcome 0 = none ∧ timeoutTwiceOutcome 1 = none ∧
    evaluateWithRetries timeoutTwiceOutcome 0 = [sampleLine] ∧
    [sampleLine] ≠ ([] : List EvalLine) := by
  refine ⟨rfl, rfl, ?_, by simp⟩
  rw [evaluateWithRetries_timeout rfl (by norm_num),
    evaluateWithRetries_timeout rfl (by norm_num),
    evaluateWithRetries_done rfl]

/-- C4 (amended): the timeout path of `Engine.evaluate` performs at most two
additional fallback attempts: if the initial attempt and both fallback
retries all time out it resolves with the empty result, and the outcome of a
call starting at `fallen = 0` depends only on the first three attempts —
no further retry is ever consulted. -/
theorem evaluate_retry_bounded (outcome : Nat → Option (List EvalLine)) :
    ((outcome 0 = none ∧ outcome 1 = none ∧ outcome 2 = none) →
      evaluateWithRetries outcome 0 = []) ∧
    (∀ outcome2 : Nat → Option (List EvalLine),
      (∀ k, k ≤ 2 → outcome k = outcome2 k) →
      evaluateWithRetries outcome 0 = evaluateWithRetries outcome2 0) := by
  constructor
  · rintro ⟨h0, h1, h2⟩
    rw [evaluateWithRetries_timeout h0 (by norm_num),
      evaluateWithRetries_timeout h1 (by norm_num),
      evaluateWithRetries_give_up h2 (by norm_num)]
  · intro outcome2 hk
    have e0 := (hk 0 (by norm_num)).symm
    cases h0 : outcome 0 with
    | some l => rw [evaluateWithRetries_done h0, evaluateWithRetries_done (e0.trans h0)]
    | none =>
      rw [evaluateWithRetries_timeout h0 (by norm_num),
        evaluateWithRetries_timeout (e0.trans h0) (by norm_num)]
      have e1 := (hk 1 (by norm_num)).symm
      cases h1 : outcome 1 with
      | some l => rw [evaluateWithRetries_done h1, evaluateWithRetries_done (e1.trans h1)]
      | none =>
        rw [evaluateWithRetries_timeout h1 (by norm_num),
          evaluateWithRetries_timeout (e1.trans h1) (by norm_num)]
        have e2 := (hk 2 (by norm_num)).symm
        cases h2 : outcome 2 with
        | some l =>
          rw [evaluateWithRetries_done h2, evaluateWithRetries_done (e2.trans h2)]
        | none =>
          rw [evaluateWithRetries_give_up h2 (by norm_num),
            evaluateWithRetries_give_up (e2.trans h2) (by norm_num)]

/-- Witness for C4's amended theorem at the all-timeouts attempt history. -/
theorem evaluate_retry_bounded_witness :
    evaluateWithRetries (fun _ => none) 0 = [] :=
  (evaluate_retry_bounded (fun _ => none)).1 ⟨rfl, rfl, rfl⟩

/-- C7: calling `abort()` with an evaluation in flight resolves the pending
promise with the empty result (it is never left pending), clears the busy
flag, and a second `abort()` call is safe: it resolves nothing further and
leaves the handle state unchanged. -/
theorem abort_resolves_and_idempotent (s : EngineState) (r : Nat)
    (h : s.currentResolve = some r) :
    (s.abort).2.resolved = some (r, []) ∧
    (s.abort).1.busy = false ∧
    ((s.abort).1).abort.1 = (s.abort).1 ∧
    ((s.abort).1).abort.2.resolved = none := by
  cases s with
  | mk busy cr crj =>
    simp only at h
    subst h
    simp [EngineState.abort]

/-- Witness for C7 at a concrete busy handle with pending promise token 5. -/
theorem abort_resolves_witness :
    ((⟨true, some 5, some 5⟩ : EngineState).abort).2.resolved = some (5, []) :=
  (abort_resolves_and_idempotent ⟨true, some 5, some 5⟩ 5 rfl).1

/-- C10: a batch over an empty move list resolves immediately with the empty
result array, after invoking the progress callback exactly once with
percent 100 (the model records callback invocations before the resolution
value, mirroring lines 220-224 of MoveEvaluator.js). -/
theorem batch_empty_progress {α : Type} (linesFor : Nat → List EvalLine)
    (order : List (Fin ([] : List α).length)) :
    runBatch ([] : List α) linesFor order =
      { results := [], completed := 0, events := [100] } := rfl

lemma buildQueueFrom_get? {α : Type} (history : List α) :
    ∀ (start k : Nat), (buildQueueFrom start history).get? k =
      (history.get? k).map (fun m => EvalJob.mk m (start + k)) := by
  induction history with
  | nil => intro start k; simp [buildQueueFrom]
  | cons m rest ih =>
    intro start k
    cases k with
    | zero => simp [buildQueueFrom]
    | succ k =>
      have harith : start + 1 + k = start + (k + 1) := by omega
      simp only [buildQueueFrom, List.get?_cons_succ, ih (start + 1) k, harith]

lemma buildQueue_get? {α : Type} (history : List α) (k : Nat) :
    (buildQueue history).get? k = (history.get? k).map (fun m => EvalJob.mk m k) := by
  simpa using buildQueueFrom_get? history 0 k

lemma completeOne_fin {α : Type} (history : List α) (linesFor : Nat → List EvalLine)
    (st : SchedState α) (j : Fin history.length) :
    completeOne history.length linesFor (buildQueue history) st j.val =
      { results := st.results.set j.val
          (some { move := history.get j, i := j.val, lines := linesFor j.val })
        completed := st.completed + 1
        events := st.events ++ [jsRound ((st.completed + 1) * 100) history.length] } := by
  unfold completeOne
  rw [buildQueue_get?, List.get?_eq_get j.isLt, Option.map_some']

lemma fold_complete_length {α : Type} (history : List α) (linesFor : Nat → List EvalLine) :
    ∀ (order : List (Fin history.length)) (st : SchedState α),
      (order.foldl (fun st j =>
          completeOne history.length linesFor (buildQueue history) st j.val) st).results.length
        = st.results.length := by
  intro order
  induction order with
  | nil => intro st; rfl
  | cons j rest ih =>
    intro st
    rw [List.foldl_cons, ih, completeOne_fin]
    simp

lemma fold_complete_get {α : Type} (history : List α) (linesFor : Nat → List EvalLine) :
    ∀ (order : List (Fin history.length)) (st : SchedState α) (i : Fin history.length),
      st.results.length = history.length →
      (order.foldl (fun st j =>
          completeOne history.length linesFor (buildQueue history) st j.val) st).results.get? i.val
        = if i ∈ order
          then some (some { move := history.get i, i := i.val, lines := linesFor i.val })
          else st.results.get? i.val := by
  intro order
  induction order with
  | nil => intro st i _; simp
  | cons j rest ih =>
    intro st i hlen
    rw [List.foldl_cons, completeOne_fin,
      ih _ i (by simp [hlen])]
    by_cases hmem : i ∈ rest
    · simp [hmem]
    · by_cases hij : i = j
      · subst hij
        simp only [hmem, if_false, List.mem_cons, true_or, if_true]
        exact List.get?_set_eq_of_lt _ (by rw [hlen]; exact i.isLt)
      · have hvals : j.val ≠ i.val := fun hc => hij (Fin.ext hc.symm)
        simp only [hmem, if_false, List.mem_cons, hij, false_or]
        exact List.get?_set_ne _ _ hvals

/-- C1: for every input move list, over any completion order that settles each
job exactly once (and in fact over any order settling each job at least
once), the batch output array has exactly one entry per input move, the
entry at each index is the job with that original ordinal (with its engine
lines attached), and hence the output order equals the input order no matter
how the concurrent evaluations interleave. -/
theorem batchEvaluateMoves_preserves_order {α : Type} (history : List α)
    (linesFor : Nat → List EvalLine) (order : List (Fin history.length))
    (hall : ∀ j : Fin history.length, j ∈ order) :
    (runBatch history linesFor order).results.length = history.length ∧
    ∀ i : Fin history.length,
      (runBatch history linesFor order).results.get? i.val =
        some (some { move := history.get i, i := i.val, lines := linesFor i.val }) := by
  by_cases h0 : history.length = 0
  · constructor
    · simp [runBatch, h0]
    · intro i
      exact absurd i.isLt (by omega)
  · constructor
    · simp only [runBatch, h0, if_false]
      rw [fold_complete_length]
      simp
    · intro i
      simp only [runBatch, h0, if_false]
      rw [fold_complete_get history linesFor order _ i (by simp)]
      simp [hall i]

/-- Witness for C1: a two-move batch completed in reverse order still stores
the first move's result at index 0. -/
theorem batchEvaluateMoves_preserves_order_witness :
    (runBatch ["e4", "e5"] (fun _ => []) ([1, 0] : List (Fin 2))).results.get? 0 =
      some (some { move := "e4", i := 0, lines := [] }) := by
  have h := batchEvaluateMoves_preserves_order ["e4", "e5"] (fun _ => [])
    ([1, 0] : List (Fin 2)) (by decide)
  exact h.2 ⟨0, by norm_num⟩

lemma fold_complete_events {α : Type} (history : List α) (linesFor : Nat → List EvalLine) :
    ∀ (order : List (Fin history.length)) (st : SchedState α),
      (order.foldl (fun st j =>
          completeOne history.length linesFor (buildQueue history) st j.val) st).events
        = st.events ++ (List.range order.length).map
            (fun k => jsRound ((st.completed + k + 1) * 100) history.length) ∧
      (order.foldl (fun st j =>
          completeOne history.length linesFor (buildQueue history) st j.val) st).completed
        = st.completed + order.length := by
  intro order
  induction order with
  | nil => intro st; simp
  | cons j rest ih =>
    intro st
    rw [List.foldl_cons, completeOne_fin]
    obtain ⟨ihev, ihc⟩ := ih
      { results :=
          st.results.set j.val
            (some { move := history.get j, i := j.val, lines := linesFor j.val }),
        completed := st.completed + 1,
        events := st.events ++ [jsRound ((st.completed + 1) * 100) history.length] }
    dsimp only at ihev ihc
    constructor
    · rw [ihev]
      simp only [List.length_cons, List.range_succ_eq_map, List.map_cons, List.map_map,
        List.append_assoc, List.singleton_append]
      have h0 : st.completed + 0 + 1 = st.completed + 1 := by omega
      have hmap :
          List.map ((fun k => jsRound ((st.completed + k + 1) * 100) history.length) ∘ Nat.succ)
              (List.range rest.length) =
            List.map (fun k => jsRound ((st.completed + 1 + k + 1) * 100) history.length)
              (List.range rest.length) := by
        apply List.map_congr_left
        intro a _
        simp only [Function.comp_apply]
        congr 2
        omega
      rw [h0, hmap]
    · rw [ihc]
      simp only [List.length_cons]
      omega

lemma runBatch_events {α : Type} (history : List α) (linesFor : Nat → List EvalLine)
    (order : List (Fin history.length)) :
    (runBatch history linesFor order).events =
      (if history.length = 0 then [100]
       else (List.range order.length).map
         (fun k => jsRound ((k + 1) * 100) history.length) ++ [100]) := by
  by_cases h0 : history.length = 0
  · simp [runBatch, h0]
  · simp only [runBatch, h0, if_false]
    rw [(fold_complete_events history linesFor order _).1]
    simp

lemma jsRound_mono (den : Nat) {a b : Nat} (h : a ≤ b) :
    jsRound a den ≤ jsRound b den := by
  unfold jsRound
  exact Nat.div_le_div_right (by omega)

lemma jsRound_le_100 {m n : Nat} (hn : 0 < n) (hm : m ≤ n) :
    jsRound (m * 100) n ≤ 100 := by
  unfold jsRound
  have h2n : 0 < 2 * n := by omega
  have hlt : 2 * (m * 100) + n < 101 * (2 * n) := by omega
  have := (Nat.div_lt_iff_lt_mul h2n).mpr hlt
  omega

lemma progress_chain {n m : Nat} (hn : 0 < n) (hm : m ≤ n) :
    List.Chain' (· ≤ ·)
      ((List.range m).map (fun k => jsRound ((k + 1) * 100) n) ++ [100]) := by
  apply List.Pairwise.chain'
  rw [List.pairwise_append]
  refine ⟨?_, by simp, ?_⟩
  · rw [List.pairwise_map]
    exact (List.pairwise_lt_range m).imp (fun hab => jsRound_mono n (by omega))
  · intro x hx y hy
    rw [List.mem_singleton] at hy
    subst hy
    rw [List.mem_map] at hx
    obtain ⟨k, hk, rfl⟩ := hx
    rw [List.mem_range] at hk
    exact jsRound_le_100 hn (by omega)

/-- C8 (counterexample): in a three-move batch the first completion invokes
the progress callback with `Math.round(1/3*100) = 33`, which differs from the
exact value `completed/total*100 = 100/3` the claim states; moreover the
cancellation tick reports `100` regardless of the completed count.  The
first invocation therefore does not report `completed/total*100` exactly. -/
theorem batch_progress_percent_counterexample :
    (runBatch ["a", "b", "c"] (fun _ => []) ([0, 1, 2] : List (Fin 3))).events.get? 0 =
      some 33 ∧ ((33 : ℚ) ≠ 1 / 3 * 100) := by
  constructor
  · rfl
  · norm_num

/-- C8 (amended): every completion invocation of the progress callback
reports `Math.round(completed/total*100)` where `completed` counts settled
jobs (the event list is exactly the rounded percentages of `1..k` settled
jobs followed by the final `100` report), and over the whole batch —
including the final completion report — the reported percent sequence is
monotonically non-decreasing. -/
theorem batch_progress_spec {α : Type} (history : List α)
    (linesFor : Nat → List EvalLine) (order : List (Fin history.length))
    (hnd : order.Nodup) :
    (runBatch history linesFor order).events =
      (if history.length = 0 then [100]
       else (List.range order.length).map
         (fun k => jsRound ((k + 1) * 100) history.length) ++ [100]) ∧
    List.Chain' (· ≤ ·) (runBatch history linesFor order).events := by
  refine ⟨runBatch_events history linesFor order, ?_⟩
  rw [runBatch_events]
  by_cases h0 : history.length = 0
  · simp [h0]
  · rw [if_neg h0]
    have hm : order.length ≤ history.length := by
      have := hnd.length_le_card
      simpa using this
    exact progress_chain (Nat.pos_of_ne_zero h0) hm

/-- Witness for C8's amended theorem on a concrete three-move batch. -/
theorem batch_progress_spec_witness :
    List.Chain' (· ≤ ·)
      (runBatch ["x", "y", "z"] (fun _ => []) ([0, 1, 2] : List (Fin 3))).events :=
  (batch_progress_spec ["x", "y", "z"] (fun _ => []) ([0, 1, 2] : List (Fin 3))
    (by decide)).2

lemma centipawnsToWinPercent_bounds (x : ℝ) :
    0 ≤ centipawnsToWinPercent x ∧ centipawnsToWinPercent x ≤ 100 := by
  unfold centipawnsToWinPercent
  split
  · split
    · norm_num
    · norm_num
  · exact ⟨le_max_left _ _, max_le (by norm_num) (min_le_left _ _)⟩

lemma winPercentFormula_mono {x y : ℝ} (h : x ≤ y) :
    winPercentFormula x ≤ winPercentFormula y := by
  unfold winPercentFormula
  have hexp : Real.exp (-0.00368208 * y) ≤ Real.exp (-0.00368208 * x) := by
    apply Real.exp_le_exp.mpr
    nlinarith
  have hx : (0 : ℝ) < 1 + Real.exp (-0.00368208 * x) := by positivity
  have hy : (0 : ℝ) < 1 + Real.exp (-0.00368208 * y) := by positivity
  gcongr

/-- C2: the win-probability conversion is monotonically non-decreasing in the
centipawn score, maps a score of 0 to exactly 50, always lands in `[0, 100]`,
and scores of mate magnitude (absolute value above 10000) saturate to exactly
100 or 0 according to their sign. -/
theorem centipawnsToWinPercent_spec :
    (∀ x y : ℝ, x ≤ y → centipawnsToWinPercent x ≤ centipawnsToWinPercent y) ∧
    centipawnsToWinPercent 0 = 50 ∧
    (∀ x : ℝ, 0 ≤ centipawnsToWinPercent x ∧ centipawnsToWinPercent x ≤ 100) ∧
    (∀ x : ℝ, 10000 < |x| → centipawnsToWinPercent x = if 0 < x then 100 else 0) := by
  refine ⟨?_, ?_, centipawnsToWinPercent_bounds, ?_⟩
  · intro x y hxy
    by_cases hx : 10000 < |x| <;> by_cases hy : 10000 < |y|
    · simp only [centipawnsToWinPercent, hx, hy, if_true]
      by_cases h0x : 0 < x
      · have h0y : 0 < y := lt_of_lt_of_le h0x hxy
        simp [h0x, h0y]
      · by_cases h0y : 0 < y <;> simp [h0x, h0y]
    · simp only [centipawnsToWinPercent, hx, hy, if_true, if_false]
      by_cases h0x : 0 < x
      · exfalso
        apply hy
        have : (10000 : ℝ) < x := by
          rwa [abs_of_pos h0x] at hx
        have : (10000 : ℝ) < y := lt_of_lt_of_le this hxy
        exact lt_of_lt_of_le this (le_abs_self y)
      · simp only [h0x, if_false]
        exact le_max_left _ _
    · simp only [centipawnsToWinPercent, hx, hy, if_true, if_false]
      by_cases h0y : 0 < y
      · simp only [h0y, if_true]
        exact max_le (by norm_num) (min_le_left _ _)
      · exfalso
        apply hx
        push_neg at h0y
        have hylt : y < -10000 := by
          have : (10000 : ℝ) < -y := by
            rwa [abs_of_nonpos h0y] at hy
          linarith
        have hxlt : x < -10000 := lt_of_le_of_lt hxy hylt
        have : (10000 : ℝ) < -x := by linarith
        exact lt_of_lt_of_le this (neg_le_abs x)
    · simp only [centipawnsToWinPercent, hx, hy, if_false]
      exact max_le_max (le_refl 0) (min_le_min (le_refl 100) (winPercentFormula_mono hxy))
  · have hform : winPercentFormula 0 = 50 := by
      unfold winPercentFormula
      norm_num
    simp only [centipawnsToWinPercent, hform]
    norm_num
  · intro x hx
    simp [centipawnsToWinPercent, hx]

/-- Witness for C2 at the concrete scores 0, 1 and 20001. -/
theorem centipawnsToWinPercent_spec_witness :
    centipawnsToWinPercent 0 ≤ centipawnsToWinPercent 1 ∧
    centipawnsToWinPercent 20001 = 100 := by
  constructor
  · exact centipawnsToWinPercent_spec.1 0 1 zero_le_one
  · have h := centipawnsToWinPercent_spec.2.2.2 20001 (by
      rw [abs_of_pos] <;> norm_num)
    rw [h]
    norm_num

lemma harmonicMean_pos {vs : List ℝ} {r : ℝ} (h : harmonicMean vs = some r) : 0 < r := by
  unfold harmonicMean at h
  by_cases h1 : vs.isEmpty
  · simp [h1] at h
  · rw [if_neg h1] at h
    by_cases h2 : (vs.filter (fun v => 0 < v)).isEmpty
    · simp [h2] at h
    · rw [if_neg h2] at h
      have hne : vs.filter (fun v => 0 < v) ≠ [] := by
        simpa [List.isEmpty_iff] using h2
      have hpos : ∀ x ∈ (vs.filter (fun v => 0 < v)).map (fun v => 1 / v), 0 < x := by
        intro x hx
        rw [List.mem_map] at hx
        obtain ⟨v, hv, rfl⟩ := hx
        have := List.of_mem_filter hv
        have hv0 : (0 : ℝ) < v := by simpa using this
        positivity
      have hsum : 0 < ((vs.filter (fun v => 0 < v)).map (fun v => 1 / v)).sum :=
        List.sum_pos _ hpos (by simpa using hne)
      have hlen : 0 < ((vs.filter (fun v => 0 < v)).length : ℝ) := by
        have := List.length_pos.mpr hne
        exact_mod_cast this
      rw [Option.some.injEq] at h
      rw [← h]
      positivity

lemma harmonicMean_le_100 {vs : List ℝ} {r : ℝ} (hle : ∀ v ∈ vs, v ≤ 100)
    (h : harmonicMean vs = some r) : r ≤ 100 := by
  unfold harmonicMean at h
  by_cases h1 : vs.isEmpty
  · simp [h1] at h
  · rw [if_neg h1] at h
    by_cases h2 : (vs.filter (fun v => 0 < v)).isEmpty
    · simp [h2] at h
    · rw [if_neg h2] at h
      rw [Option.some.injEq] at h
      set valid := vs.filter (fun v => 0 < v) with hvalid
      have hne : valid ≠ [] := by simpa [List.isEmpty_iff] using h2
      have hmem : ∀ v ∈ valid, 0 < v ∧ v ≤ 100 := by
        intro v hv
        have hv0 : (0 : ℝ) < v := by simpa using List.of_mem_filter hv
        exact ⟨hv0, hle v (List.mem_of_mem_filter hv)⟩
      have hrecip : ∀ v ∈ valid, (1 : ℝ) / 100 ≤ 1 / v := by
        intro v hv
        obtain ⟨hv0, hv100⟩ := hmem v hv
        exact one_div_le_one_div_of_le hv0 hv100
      have hconst : ((valid.map fun _ => (1 : ℝ) / 100).sum) =
          (valid.length : ℝ) * (1 / 100) := by
        rw [List.map_const']
        rw [List.sum_replicate]
        rw [nsmul_eq_mul]
      have hsumge : (valid.length : ℝ) * (1 / 100) ≤ ((valid.map fun v => 1 / v).sum) := by
        rw [← hconst]
        exact List.sum_le_sum hrecip
      have hsumpos : 0 < ((valid.map fun v => 1 / v).sum) := by
        apply List.sum_pos
        · intro x hx
          rw [List.mem_map] at hx
          obtain ⟨v, hv, rfl⟩ := hx
          have := (hmem v hv).1
          positivity
        · simpa using hne
      rw [← h, div_le_iff hsumpos]
      have hlen : (0 : ℝ) ≤ (valid.length : ℝ) := by positivity
      nlinarith

/-- C9: the harmonic-mean component silently drops every value that is not
strictly positive before averaging: prepending a zero leaves the result
unchanged, the mean equals the mean of the positive sublist, a list with no
strictly positive value yields `null` (`none`) rather than `0`, and any
defined harmonic mean is strictly positive (so zeros never pull it to 0). -/
theorem harmonicMean_spec (values : List ℝ) :
    harmonicMean ((0 : ℝ) :: values) = harmonicMean values ∧
    harmonicMean values = harmonicMean (values.filter (fun v => 0 < v)) ∧
    ((∀ v ∈ values, v ≤ 0) → harmonicMean values = none) ∧
    (∀ r, harmonicMean values = some r → 0 < r) := by
  have hfilter0 : ((0 : ℝ) :: values).filter (fun v => 0 < v) =
      values.filter (fun v => 0 < v) := by
    simp
  refine ⟨?_, ?_, ?_, fun r h => harmonicMean_pos h⟩
  · unfold harmonicMean
    rw [hfilter0]
    by_cases h2 : (values.filter (fun v => 0 < v)).isEmpty
    · simp [h2]
    · have hvne : ¬ values.isEmpty := by
        rcases values with _ | ⟨a, rest⟩
        · simp at h2
        · simp
      simp [h2, hvne]
  · unfold harmonicMean
    have hidem : (values.filter (fun v => 0 < v)).filter (fun v => 0 < v) =
        values.filter (fun v => 0 < v) := by
      simp [List.filter_filter]
    rw [hidem]
    by_cases h2 : (values.filter (fun v => 0 < v)).isEmpty
    · simp [h2]
    · have hvne : ¬ values.isEmpty := by
        rcases values with _ | ⟨a, rest⟩
        · simp at h2
        · simp
      simp [h2, hvne]
  · intro hnp
    unfold harmonicMean
    have h2 : values.filter (fun v => 0 < v) = [] := by
      apply List.filter_eq_nil.mpr
      intro a ha
      have := hnp a ha
      simp
      linarith
    by_cases h1 : values.isEmpty
    · simp [h1]
    · simp [h1, h2]

/-- Witness for C9 at the concrete singleton list `[-1]`. -/
theorem harmonicMean_spec_witness : harmonicMean [(-1 : ℝ)] = none :=
  (harmonicMean_spec [(-1 : ℝ)]).2.2.1 (by
    intro v hv
    rw [List.mem_singleton] at hv
    subst hv
    norm_num)

lemma weightedMean_bounds {ps : List (ℝ × ℝ)} (hne : ps ≠ [])
    (hmem : ∀ p ∈ ps, (0 ≤ p.1 ∧ p.1 ≤ 100) ∧ (0.5 : ℝ) ≤ p.2) :
    ∃ w, weightedMean ps = some w ∧ 0 ≤ w ∧ w ≤ 100 := by
  have hwpos : ∀ x ∈ ps.map (fun p => p.2), (0 : ℝ) < x := by
    intro x hx
    rw [List.mem_map] at hx
    obtain ⟨p, hp, rfl⟩ := hx
    have := (hmem p hp).2
    linarith
  have hsw : 0 < (ps.map (fun p => p.2)).sum :=
    List.sum_pos _ hwpos (by simpa using hne)
  have hswv0 : 0 ≤ (ps.map (fun p => p.1 * p.2)).sum := by
    apply List.sum_nonneg
    intro x hx
    rw [List.mem_map] at hx
    obtain ⟨p, hp, rfl⟩ := hx
    obtain ⟨⟨h0, _⟩, hw⟩ := hmem p hp
    nlinarith
  have hswv100 : (ps.map (fun p => p.1 * p.2)).sum ≤ 100 * (ps.map (fun p => p.2)).sum := by
    rw [← List.sum_map_mul_left]
    apply List.sum_le_sum
    intro p hp
    obtain ⟨⟨h0, h100⟩, hw⟩ := hmem p hp
    nlinarith
  refine ⟨(ps.map (fun p => p.1 * p.2)).sum / (ps.map (fun p => p.2)).sum, ?_, ?_, ?_⟩
  · simp only [weightedMean]
    rw [if_neg (by simpa [List.isEmpty_iff] using hne), if_pos hsw]
  · exact div_nonneg hswv0 hsw.le
  · rw [div_le_iff₀ hsw]
    linarith

lemma calculateMoveAccuracy_bounds (a b : ℝ) :
    0 ≤ calculateMoveAccuracy a b ∧ calculateMoveAccuracy a b ≤ 100 := by
  unfold calculateMoveAccuracy
  exact ⟨le_max_left _ _, max_le (by norm_num) (min_le_left _ _)⟩

lemma allWinPercents_length {pairs : List (Option EvalLine × Option EvalLine)}
    (hne : pairs ≠ []) (color : String) :
    (allWinPercents pairs color).length = pairs.length + 1 := by
  unfold allWinPercents
  have h := List.getLast?_isSome.mpr hne
  obtain ⟨lp, hlp⟩ := Option.isSome_iff_exists.mp h
  rw [hlp]
  simp

lemma windowSizeOf_le {n : Nat} (hn : 1 ≤ n) : windowSizeOf n ≤ n + 1 := by
  unfold windowSizeOf
  apply max_le
  · omega
  · calc min 8 (n / 10) ≤ n / 10 := min_le_right _ _
      _ ≤ n := Nat.div_le_self n 10
      _ ≤ n + 1 := by omega

lemma gameWeights_length_pos {pairs : List (Option EvalLine × Option EvalLine)}
    (hne : pairs ≠ []) (color : String) :
    0 < (gameWeights (allWinPercents pairs color) pairs.length).length := by
  have hlen := allWinPercents_length hne color
  have hn : 1 ≤ pairs.length := List.length_pos.mpr hne
  have hws : windowSizeOf pairs.length ≤ (allWinPercents pairs color).length := by
    rw [hlen]
    exact windowSizeOf_le hn
  simp only [gameWeights, gameWindows, List.length_map, List.length_append, hws, if_true,
    List.length_replicate, List.length_range]
  omega

lemma gameWeights_mem {winPercents : List ℝ} {n : Nat} :
    ∀ w ∈ gameWeights winPercents n, (0.5 : ℝ) ≤ w := by
  intro w hw
  simp only [gameWeights, List.mem_map] at hw
  obtain ⟨win, _, rfl⟩ := hw
  exact le_max_left _ _

lemma weightedAccuracies_ne_nil {moves : List GameMove} {color : String}
    (hne : evaluationPairs moves color ≠ []) :
    weightedAccuracies moves color ≠ [] := by
  have h1 : 1 ≤ (evaluationPairs moves color).length := List.length_pos.mpr hne
  have h2 := gameWeights_length_pos hne color
  apply List.length_pos.mp
  simp only [weightedAccuracies, List.length_map, List.length_range]
  omega

lemma weightedAccuracies_mem {moves : List GameMove} {color : String} :
    ∀ p ∈ weightedAccuracies moves color,
      (0 ≤ p.1 ∧ p.1 ≤ 100) ∧ (0.5 : ℝ) ≤ p.2 := by
  intro p hp
  simp only [weightedAccuracies, List.mem_map, List.mem_range] at hp
  obtain ⟨i, hi, rfl⟩ := hp
  refine ⟨calculateMoveAccuracy_bounds _ _, ?_⟩
  have hilt : i < (gameWeights
      (allWinPercents (evaluationPairs moves color) color)
      (evaluationPairs moves color).length).length :=
    lt_of_lt_of_le hi (min_le_right _ _)
  rw [List.getD_eq_getElem _ _ hilt]
  exact gameWeights_mem _ (List.getElem_mem hilt)

/-- C3: for every game whose processed-color move list is non-empty, the game
accuracy equals the arithmetic average of the volatility-weight-weighted
arithmetic mean and the unweighted harmonic mean of the per-move accuracies;
the weighted mean is always defined there (so the both-undefined fallback to
0 cannot fire), if the harmonic mean alone is undefined the weighted mean is
returned, and the result always lies in `[0, 100]`. -/
theorem calculateGameAccuracy_spec (moves : List GameMove) (color : String)
    (hne : evaluationPairs moves color ≠ []) :
    (0 ≤ calculateGameAccuracy moves color ∧ calculateGameAccuracy moves color ≤ 100) ∧
    (weightedMean (weightedAccuracies moves color)).isSome = true ∧
    (∀ w h, weightedMean (weightedAccuracies moves color) = some w →
      harmonicMean ((weightedAccuracies moves color).map (fun p => p.1)) = some h →
      calculateGameAccuracy moves color = (w + h) / 2) ∧
    (∀ w, weightedMean (weightedAccuracies moves color) = some w →
      harmonicMean ((weightedAccuracies moves color).map (fun p => p.1)) = none →
      calculateGameAccuracy moves color = w) := by
  have hmv : moves ≠ [] := by
    intro hc
    subst hc
    exact hne rfl
  have hwne := weightedAccuracies_ne_nil hne
  obtain ⟨w, hw, hw0, hw100⟩ := weightedMean_bounds hwne weightedAccuracies_mem
  have hacc_le : ∀ v ∈ (weightedAccuracies moves color).map (fun p => p.1), v ≤ 100 := by
    intro v hv
    rw [List.mem_map] at hv
    obtain ⟨p, hp, rfl⟩ := hv
    exact ((weightedAccuracies_mem p hp).1).2
  have h1 : moves.isEmpty = false := by
    rcases moves with _ | ⟨m, ms⟩
    · exact absurd rfl hmv
    · rfl
  have h2 : (evaluationPairs moves color).isEmpty = false := by
    rcases hx : evaluationPairs moves color with _ | ⟨p, ps⟩
    · exact absurd hx hne
    · rfl
  have h3 : (weightedAccuracies moves color).isEmpty = false := by
    rcases hx : weightedAccuracies moves color with _ | ⟨p, ps⟩
    · exact absurd hx hwne
    · rfl
  have hunfold : calculateGameAccuracy moves color =
      match weightedMean (weightedAccuracies moves color),
            harmonicMean ((weightedAccuracies moves color).map (fun p => p.1)) with
      | none, none => 0
      | none, some h => h
      | some w, none => w
      | some w, some h => (w + h) / 2 := by
    simp only [calculateGameAccuracy, h1, h2, h3, Bool.false_eq_true, if_false]
  refine ⟨?_, ?_, ?_, ?_⟩
  · rw [hunfold, hw]
    cases hh : harmonicMean ((weightedAccuracies moves color).map (fun p => p.1)) with
    | none => exact ⟨hw0, hw100⟩
    | some hm =>
      have hmpos := harmonicMean_pos hh
      have hmle := harmonicMean_le_100 hacc_le hh
      constructor
      · show (0 : ℝ) ≤ (w + hm) / 2
        linarith
      · show (w + hm) / 2 ≤ (100 : ℝ)
        linarith
  · rw [hw]
    rfl
  · intro w' h' hw' hh'
    rw [hunfold, hw', hh']
  · intro w' hw' hh'
    rw [hunfold, hw', hh']

/-- Witness for C3 at a one-move game (a white move with no engine lines). -/
theorem calculateGameAccuracy_spec_witness :
    0 ≤ calculateGameAccuracy [{ fen := "r b c", lines := [] }] "white" ∧
    calculateGameAccuracy [{ fen := "r b c", lines := [] }] "white" ≤ 100 :=
  (calculateGameAccuracy_spec [{ fen := "r b c", lines := [] }] "white" (by decide)).1

lemma interpretStep_none {fen s : String} {maxD : Nat} {lines : List EvalLine}
    (h : lineFromOutput s fen = none) :
    interpretStep fen maxD lines s = lines := by
  unfold interpretStep
  rw [h]

lemma interpretStep_some {fen s : String} {maxD : Nat} {lines : List EvalLine}
    {l0 : EvalLine} (h : lineFromOutput s fen = some l0) :
    interpretStep fen maxD lines s =
      (if l0.depth = maxD ∧ ¬ lines.any (fun x => x.id = l0.id) then lines ++ [l0]
       else lines) := by
  unfold interpretStep
  rw [h]

lemma interpret_fold_inv (fen : String) (maxD : Nat) (srcs : List String) :
    ∀ (outs : List String) (acc : List EvalLine),
      (∀ s ∈ outs, s ∈ srcs) →
      (∀ l ∈ acc, l.depth = maxD ∧ ∃ s, s ∈ srcs ∧ lineFromOutput s fen = some l) →
      acc.Pairwise (fun a b => a.id ≠ b.id) →
      (∀ l ∈ outs.foldl (interpretStep fen maxD) acc,
        l.depth = maxD ∧ ∃ s, s ∈ srcs ∧ lineFromOutput s fen = some l) ∧
      (outs.foldl (interpretStep fen maxD) acc).Pairwise (fun a b => a.id ≠ b.id) := by
  intro outs
  induction outs with
  | nil => intro acc _ hacc hpw; exact ⟨hacc, hpw⟩
  | cons s rest ih =>
    intro acc hsrc hacc hpw
    rw [List.foldl_cons]
    have hsmem : s ∈ srcs := hsrc s (List.mem_cons_self s rest)
    have hstep : (∀ l ∈ interpretStep fen maxD acc s,
        l.depth = maxD ∧ ∃ t, t ∈ srcs ∧ lineFromOutput t fen = some l) ∧
        (interpretStep fen maxD acc s).Pairwise (fun a b => a.id ≠ b.id) := by
      cases hline : lineFromOutput s fen with
      | none =>
        rw [interpretStep_none hline]
        exact ⟨hacc, hpw⟩
      | some l0 =>
        rw [interpretStep_some hline]
        by_cases hcond : l0.depth = maxD ∧ ¬ acc.any (fun x => x.id = l0.id)
        · rw [if_pos hcond]
          have hnew : ∀ a ∈ acc, a.id ≠ l0.id := by
            intro a ha hc
            apply hcond.2
            rw [List.any_eq_true]
            exact ⟨a, ha, decide_eq_true hc⟩
          constructor
          · intro l hl
            rcases List.mem_append.mp hl with hin | hl0
            · exact hacc l hin
            · rw [List.mem_singleton] at hl0
              subst hl0
              exact ⟨hcond.1, s, hsmem, hline⟩
          · rw [List.pairwise_append]
            refine ⟨hpw, List.pairwise_singleton _ _, ?_⟩
            intro a ha b hb
            rw [List.mem_singleton] at hb
            subst hb
            exact hnew a ha
        · rw [if_neg hcond]
          exact ⟨hacc, hpw⟩
    exact ih _ (fun t ht => hsrc t (List.mem_cons_of_mem _ ht)) hstep.1 hstep.2

lemma interpret_inv (uciOutputLines : List String) (fen : String) (targetDepth : Nat) :
    (∀ l ∈ interpret uciOutputLines fen targetDepth,
      l.depth = maxDepthOf uciOutputLines ∧
      ∃ s, s ∈ uciOutputLines ∧ lineFromOutput s fen = some l) ∧
    (interpret uciOutputLines fen targetDepth).Pairwise (fun a b => a.id ≠ b.id) := by
  have h := interpret_fold_inv fen (maxDepthOf uciOutputLines) uciOutputLines
    (uciOutputLines.filter (fun s => strStartsWith s "info depth")) []
    (fun t ht => List.mem_of_mem_filter ht)
    (by intro l hl; cases hl)
    List.Pairwise.nil
  exact ⟨fun l hl => (h.1 l hl), h.2⟩

lemma lineFromOutput_score {s fen : String} {l : EvalLine}
    (h : lineFromOutput s fen = some l) :
    l.score = (if strIncludes fen " b " then (negamaxScoreOf s).map (fun z => -z)
               else negamaxScoreOf s) := by
  unfold lineFromOutput at h
  split at h
  · split at h
    · exact absurd h (by simp)
    · rw [Option.some.injEq] at h
      rw [← h]
  · exact absurd h (by simp)

/-- C6: for every sequence of textual engine output lines, the interpreter
keeps only evaluation lines reported at the maximum depth reached in that
output (shallower lines are all discarded), returns at most one line per
multi-PV rank (all returned ranks are pairwise distinct), and every returned
line is built from a single input line — duplicates for a rank are dropped,
never merged. -/
theorem interpret_max_depth_unique_ranks (uciOutputLines : List String)
    (fen : String) (targetDepth : Nat) :
    (∀ l ∈ interpret uciOutputLines fen targetDepth,
      l.depth = maxDepthOf uciOutputLines) ∧
    (interpret uciOutputLines fen targetDepth).Pairwise (fun a b => a.id ≠ b.id) ∧
    (∀ l ∈ interpret uciOutputLines fen targetDepth,
      ∃ s, s ∈ uciOutputLines ∧ lineFromOutput s fen = some l) := by
  obtain ⟨h1, h2⟩ := interpret_inv uciOutputLines fen targetDepth
  exact ⟨fun l hl => (h1 l hl).1, h2, fun l hl => (h1 l hl).2⟩

/-- Witness for C6: a single depth-10 output line yields a line whose depth
is the maximum depth of the output. -/
theorem interpret_max_depth_witness :
    ({ id := 1, uciMove := "e2e4", depth := 10, score := some 23, type := "cp",
       pv := ["e2e4", "e7e5"] } : EvalLine).depth =
      maxDepthOf ["info depth 10 multipv 1 score cp 23 pv e2e4 e7e5"] :=
  (interpret_max_depth_unique_ranks
    ["info depth 10 multipv 1 score cp 23 pv e2e4 e7e5"] "w" 10).1 _ (by decide)

/-- C5: every line returned by the interpreter carries the raw engine score
inverted exactly when the position's FEN says black is to move
(`fen.includes(" b ")`), and passed through unchanged otherwise, so all
returned scores share one consistent perspective per position. -/
theorem interpret_score_sign (uciOutputLines : List String) (fen : String)
    (targetDepth : Nat) :
    ∀ l ∈ interpret uciOutputLines fen targetDepth,
      ∃ s, s ∈ uciOutputLines ∧
        l.score = (if strIncludes fen " b " then (negamaxScoreOf s).map (fun z => -z)
                   else negamaxScoreOf s) := by
  intro l hl
  obtain ⟨_, s, hs, hline⟩ := (interpret_inv uciOutputLines fen targetDepth).1 l hl
  exact ⟨s, hs, lineFromOutput_score hline⟩

/-- Witness for C5: with black to move in the FEN, the returned score is the
negated raw engine score. -/
theorem interpret_score_sign_witness :
    ∃ s, s ∈ ["info depth 10 multipv 1 score cp 23 pv e2e4 e7e5"] ∧
      ({ id := 1, uciMove := "e2e4", depth := 10, score := some (-23), type := "cp",
         pv := ["e2e4", "e7e5"] } : EvalLine).score =
        (if strIncludes "x b x" " b " then (negamaxScoreOf s).map (fun z => -z)
         else negamaxScoreOf s) :=
  interpret_score_sign ["info depth 10 multipv 1 score cp 23 pv e2e4 e7e5"]
    "x b x" 10 _ (by decide)
